import Mathlib

/-!
Verification of the sshego repository's buffer, certificate, supervisor and
dial logic against its natural-language specification.

The buffer section embeds `buffer.go` (package ssh): a linked-list FIFO of
byte slices with a `closed` flag and an idle timer.  The Go linked list
`head .. tail` is modelled as the first chunk `head` plus the list `rest` of
the chunks after it (`head ≠ tail` in Go is `rest ≠ []` here).  Bytes are
`Nat` values (the Go `byte` values 0..255).  The blocking points of
`buffer.Read` (the select on the idle timer / halt and the condition
variable wait) are modelled by a list of wake events: each event carries the
message received from the idle timer's TimedOut channel ([] plays the empty
string, i.e. the halt branch), together with the writes and the eof that
concurrent producers performed while the reader was parked.  Recursion is
fuel-based so that every definition computes by kernel reduction.
-/

namespace Sshego

/-- The state of a `buffer` (buffer.go): the chunk the next Read copies from,
the chunks after it, and the `closed` flag set by `eof()`. -/
structure Buf where
  head : List Nat
  rest : List (List Nat)
  closed : Bool
deriving DecidableEq

/-- `newBuffer`: one empty element, head = tail, not closed. -/
def newBuffer : Buf := ⟨[], [], false⟩

/-- `buffer.write`: appends a new element at the tail (and signals a waiter,
which the wake events model). -/
def bufWrite (b : Buf) (bs : List Nat) : Buf :=
  { b with rest := b.rest ++ [bs] }

/-- `buffer.eof`: sets `closed` (and signals a waiter). -/
def bufEof (b : Buf) : Buf :=
  { b with closed := true }

/-- The errors `buffer.Read` can return: `io.EOF`, or the timeout error built
from the idle timer's message. -/
inductive RErr where
  | eofErr : RErr
  | timeoutErr : List Nat → RErr
deriving DecidableEq

/-- One wakeup at the blocking point of `buffer.Read`: the message delivered
by `idle.TimedOut` ([] for the halt branch, which makes Read call
`Cond.Wait`), and the writes / eof other goroutines performed meanwhile. -/
structure WakeEvent where
  timedOutMsg : List Nat
  writes : List (List Nat)
  closes : Bool
deriving DecidableEq

/-- The result of one `buffer.Read` call: `ret bytes err state resetCalled`
(resetCalled records whether the deferred `b.idle.Reset()` ran, which the
code does exactly when `err == nil`), `blocked` when the reader is still
parked after all wake events, `outOfFuel` when the fuel ran out. -/
inductive ReadOut where
  | ret : List Nat → Option RErr → Buf → Bool → ReadOut
  | blocked : List Nat → Buf → ReadOut
  | outOfFuel : ReadOut
deriving DecidableEq

/-- The loop of `buffer.Read` (buffer.go lines 77-126).  `dstRem` is
`len(buf)` for the remaining destination space, `acc` the bytes copied so
far (`n = acc.length`).  Branches in the code's order: copy from a non-empty
head; advance head when `head ≠ tail`; return when `n > 0`; return EOF when
`closed`; otherwise block on the idle timer / halt select and, when the
timer did not fire, wait on the condition variable and loop. -/
def readLoop : Nat → Nat → List Nat → List (List Nat) → Bool → List Nat →
    List WakeEvent → ReadOut
  | 0, _, _, _, _, _, _ => .outOfFuel
  | Nat.succ fuel, dstRem, head, rest, closed, acc, events =>
    match dstRem, head, rest with
    | 0, h, r => .ret acc none ⟨h, r, closed⟩ true
    | Nat.succ d, x :: xs, r =>
      let r0 := min (Nat.succ d) (x :: xs).length
      readLoop fuel (Nat.succ d - r0) ((x :: xs).drop r0) r closed
        (acc ++ (x :: xs).take r0) events
    | Nat.succ d, [], c :: cs => readLoop fuel (Nat.succ d) c cs closed acc events
    | Nat.succ d, [], [] =>
      match acc with
      | a :: as => .ret (a :: as) none ⟨[], [], closed⟩ true
      | [] =>
        match closed with
        | true => .ret [] (some .eofErr) ⟨[], [], true⟩ false
        | false =>
          match events with
          | [] => .blocked [] ⟨[], [], false⟩
          | e :: es =>
            if e.timedOutMsg ≠ [] then
              .ret [] (some (.timeoutErr e.timedOutMsg)) ⟨[], e.writes, e.closes⟩ false
            else readLoop fuel (Nat.succ d) [] e.writes e.closes [] es

/-- `buffer.Read` on a buffer state, a destination of `dstLen` bytes, and the
given wake events. -/
def bufRead (b : Buf) (dstLen : Nat) (events : List WakeEvent) (fuel : Nat) : ReadOut :=
  readLoop fuel dstLen b.head b.rest b.closed [] events

/-- Whenever the loop returns with a nil error, it has copied at least one
byte — provided the destination still had room or some byte was already
copied (the Go loop body only runs while `len(buf) > 0`). -/
theorem readLoop_nil_err_ne_nil (fuel : Nat) :
    ∀ dstRem head rest closed acc events a b' rc,
      (dstRem ≠ 0 ∨ acc ≠ []) →
      readLoop fuel dstRem head rest closed acc events = .ret a none b' rc →
      a ≠ [] := by
  induction fuel with
  | zero =>
    intro dstRem head rest closed acc events a b' rc _ h
    simp [readLoop] at h
  | succ fuel ih =>
    intro dstRem head rest closed acc events a b' rc hnz h
    match dstRem, head, rest with
    | 0, hd, r =>
      simp only [readLoop] at h
      injection h with h1 h2 h3 h4
      subst h1
      rcases hnz with hnz | hnz
      · exact absurd rfl hnz
      · exact hnz
    | Nat.succ d, x :: xs, r =>
      simp only [readLoop] at h
      have hmin : min (Nat.succ d) (x :: xs).length = Nat.succ (min d xs.length) := by
        simp [List.length_cons, Nat.succ_min_succ]
      rw [hmin] at h
      refine ih _ _ _ _ _ _ _ _ _ (Or.inr ?_) h
      simp [List.take_succ_cons]
    | Nat.succ d, [], c :: cs =>
      simp only [readLoop] at h
      exact ih _ _ _ _ _ _ _ _ _ (Or.inl (Nat.succ_ne_zero d)) h
    | Nat.succ d, [], [] =>
      match acc with
      | a0 :: as =>
        simp only [readLoop] at h
        injection h with h1 h2 h3 h4
        exact fun hc => List.cons_ne_nil a0 as (h1.trans hc)
      | [] =>
        match closed with
        | true =>
          simp only [readLoop] at h
          injection h with h1 h2 h3 h4
          exact Option.noConfusion h2
        | false =>
          match events with
          | [] =>
            simp only [readLoop] at h
            exact ReadOut.noConfusion h
          | e :: es =>
            simp only [readLoop] at h
            by_cases ht : e.timedOutMsg ≠ []
            · rw [if_pos ht] at h
              injection h with h1 h2 h3 h4
              exact Option.noConfusion h2
            · rw [if_neg ht] at h
              exact ih _ _ _ _ _ _ _ _ _ (Or.inl (Nat.succ_ne_zero d)) h

/-- C4 counterexample: at the concrete input of a fresh buffer and a
zero-length destination slice, `Read` returns `(0, nil)` — the loop body
never runs, the error is nil and no byte was copied (and the deferred
`idle.Reset()` runs).  This is the case the claim's parenthetical asserts
could not happen. -/
theorem buffer_read_zero_dst_returns_zero_nil :
    bufRead newBuffer 0 [] 1 = .ret [] none ⟨[], [], false⟩ true ∧
      ([] : List Nat).length = 0 := by
  constructor
  · rfl
  · rfl

/-- C4 (amended): for every buffer, wake-event schedule and *non-empty*
destination slice, whenever `buffer.Read` returns with a nil error the
number of bytes copied is strictly positive. -/
theorem buffer_read_no_zero_nil (b : Buf) (dstLen : Nat) (events : List WakeEvent)
    (fuel : Nat) (acc : List Nat) (b' : Buf) (rc : Bool)
    (hd : dstLen ≠ 0)
    (h : bufRead b dstLen events fuel = .ret acc none b' rc) :
    acc ≠ [] :=
  readLoop_nil_err_ne_nil fuel dstLen b.head b.rest b.closed [] events acc b' rc
    (Or.inl hd) h

/-- Witness for C4's amended theorem: the buffer holding the single chunk
[1], read into a 1-byte destination, returns the byte with a nil error. -/
theorem buffer_read_no_zero_nil_witness : ([1] : List Nat) ≠ [] :=
  buffer_read_no_zero_nil ⟨[1], [], false⟩ 1 [] 2 [1] ⟨[], [], false⟩ true
    (by decide) (by decide)

/-- The deferred finalizer of `buffer.Read` calls `idle.Reset()` exactly when
the returned error is nil, on every path of the loop. -/
theorem readLoop_reset_iff (fuel : Nat) :
    ∀ dstRem head rest closed acc events a err b' rc,
      readLoop fuel dstRem head rest closed acc events = .ret a err b' rc →
      (rc = true ↔ err = none) := by
  induction fuel with
  | zero =>
    intro dstRem head rest closed acc events a err b' rc h
    simp [readLoop] at h
  | succ fuel ih =>
    intro dstRem head rest closed acc events a err b' rc h
    match dstRem, head, rest with
    | 0, hd, r =>
      simp only [readLoop] at h
      injection h with h1 h2 h3 h4
      subst h2; subst h4
      simp
    | Nat.succ d, x :: xs, r =>
      simp only [readLoop] at h
      exact ih _ _ _ _ _ _ _ _ _ _ h
    | Nat.succ d, [], c :: cs =>
      simp only [readLoop] at h
      exact ih _ _ _ _ _ _ _ _ _ _ h
    | Nat.succ d, [], [] =>
      match acc with
      | a0 :: as =>
        simp only [readLoop] at h
        injection h with h1 h2 h3 h4
        subst h2; subst h4
        simp
      | [] =>
        match closed with
        | true =>
          simp only [readLoop] at h
          injection h with h1 h2 h3 h4
          subst h2; subst h4
          simp
        | false =>
          match events with
          | [] =>
            simp only [readLoop] at h
            exact ReadOut.noConfusion h
          | e :: es =>
            simp only [readLoop] at h
            by_cases ht : e.timedOutMsg ≠ []
            · rw [if_pos ht] at h
              injection h with h1 h2 h3 h4
              subst h2; subst h4
              simp
            · rw [if_neg ht] at h
              exact ih _ _ _ _ _ _ _ _ _ _ h

/-- C5: on every path of `buffer.Read` that returns, the idle timer is reset
if and only if the returned error is nil — a read returning the timeout
error (or EOF) leaves the idle timer un-reset, and the reset is the only
effect of the finalizer (the returned buffer state is produced by the loop
alone). -/
theorem buffer_read_resets_idle_iff_nil (b : Buf) (dstLen : Nat)
    (events : List WakeEvent) (fuel : Nat) (acc : List Nat) (err : Option RErr)
    (b' : Buf) (rc : Bool)
    (h : bufRead b dstLen events fuel = .ret acc err b' rc) :
    rc = true ↔ err = none :=
  readLoop_reset_iff fuel dstLen b.head b.rest b.closed [] events acc err b' rc h

/-- Witness for C5: a read that times out (idle timer message [5]) returns
the timeout error and did not reset the idle timer. -/
theorem buffer_read_resets_idle_iff_nil_witness :
    false = true ↔ (some (RErr.timeoutErr [5]) : Option RErr) = none :=
  buffer_read_resets_idle_iff_nil ⟨[], [], false⟩ 1 [⟨[5], [], false⟩] 1 []
    (some (RErr.timeoutErr [5])) ⟨[], [], false⟩ false (by decide)

/-- On a closed buffer with no unread bytes (every remaining chunk is empty)
the loop skips the empty chunks and returns `(0, io.EOF)`. -/
theorem readLoop_closed_empty_eof :
    ∀ (rest : List (List Nat)) (fuel d : Nat) (events : List WakeEvent),
      rest.flatten = [] → fuel ≥ rest.length + 1 →
      readLoop fuel (Nat.succ d) [] rest true [] events =
        .ret [] (some .eofErr) ⟨[], [], true⟩ false := by
  intro rest
  induction rest with
  | nil =>
    intro fuel d events _ hf
    obtain ⟨f, rfl⟩ : ∃ f, fuel = f + 1 := ⟨fuel - 1, by omega⟩
    simp [readLoop]
  | cons c cs ih =>
    intro fuel d events hj hf
    rw [List.flatten_cons] at hj
    obtain ⟨hc, hcs⟩ := List.append_eq_nil.mp hj
    obtain ⟨f, rfl⟩ : ∃ f, fuel = f + 1 := ⟨fuel - 1, by omega⟩
    subst hc
    simp only [readLoop]
    exact ih f d events hcs (by simp at hf; omega)

/-- Once at least one byte has been copied and only empty chunks remain, the
loop skips them and returns the copied bytes with a nil error. -/
theorem readLoop_flush_acc :
    ∀ (rest : List (List Nat)) (fuel d : Nat) (closed : Bool)
      (events : List WakeEvent) (acc : List Nat),
      acc ≠ [] → rest.flatten = [] → fuel ≥ rest.length + 1 →
      readLoop fuel (Nat.succ d) [] rest closed acc events =
        .ret acc none ⟨[], [], closed⟩ true := by
  intro rest
  induction rest with
  | nil =>
    intro fuel d closed events acc hacc _ hf
    obtain ⟨f, rfl⟩ : ∃ f, fuel = f + 1 := ⟨fuel - 1, by omega⟩
    obtain ⟨a0, as, rfl⟩ : ∃ a0 as, acc = a0 :: as := by
      cases acc with
      | nil => exact absurd rfl hacc
      | cons a0 as => exact ⟨a0, as, rfl⟩
    simp [readLoop]
  | cons c cs ih =>
    intro fuel d closed events acc hacc hj hf
    rw [List.flatten_cons] at hj
    obtain ⟨hc, hcs⟩ := List.append_eq_nil.mp hj
    obtain ⟨f, rfl⟩ : ∃ f, fuel = f + 1 := ⟨fuel - 1, by omega⟩
    subst hc
    simp only [readLoop]
    exact ih f d closed events acc hacc hcs (by simp at hf; omega)

/-- Draining: whenever unread bytes remain and the destination is non-empty,
the loop copies `min dstRem available` bytes, returns them appended to `acc`
with a nil error, and leaves exactly the rest of the bytes unread.  This
holds whether or not the buffer is closed, and consumes no wake event. -/
theorem readLoop_drain :
    ∀ (fuel dstRem : Nat) (head : List Nat) (rest : List (List Nat))
      (closed : Bool) (acc : List Nat) (events : List WakeEvent),
      head ++ rest.flatten ≠ [] → dstRem ≠ 0 →
      fuel ≥ dstRem + rest.length + 2 →
      ∃ h' r', readLoop fuel dstRem head rest closed acc events =
          .ret (acc ++ (head ++ rest.flatten).take dstRem) none ⟨h', r', closed⟩ true ∧
        h' ++ r'.flatten = (head ++ rest.flatten).drop dstRem ∧
        r'.length ≤ rest.length := by
  intro fuel
  induction fuel with
  | zero =>
    intro dstRem head rest closed acc events _ _ hf
    omega
  | succ fuel ih =>
    intro dstRem head rest closed acc events hav hd hf
    obtain ⟨d, rfl⟩ : ∃ d, dstRem = Nat.succ d := ⟨dstRem - 1, by omega⟩
    match head with
    | [] =>
      match rest with
      | [] => simp at hav
      | c :: cs =>
        simp only [readLoop]
        have hav' : c ++ cs.flatten ≠ [] := by
          simpa [List.flatten_cons] using hav
        obtain ⟨h', r', heq, hrest, hrlen⟩ :=
          ih (Nat.succ d) c cs closed acc events hav' (Nat.succ_ne_zero d)
            (by simp at hf; omega)
        exact ⟨h', r', by simpa [List.flatten_cons] using heq,
          by simpa [List.flatten_cons] using hrest, by simp; omega⟩
    | x :: xs =>
      simp only [readLoop]
      by_cases hle : Nat.succ d ≤ (x :: xs).length
      · rw [Nat.min_eq_left hle, Nat.sub_self]
        obtain ⟨f, rfl⟩ : ∃ f, fuel = f + 1 := ⟨fuel - 1, by omega⟩
        refine ⟨(x :: xs).drop (Nat.succ d), rest, ?_, ?_, Nat.le_refl _⟩
        · simp only [readLoop]
          rw [List.take_append_of_le_length hle]
        · rw [List.drop_append_of_le_length hle]
      · push_neg at hle
        have hlen : (x :: xs).length ≤ Nat.succ d := by omega
        rw [Nat.min_eq_right hlen, List.take_length, List.drop_length]
        by_cases hj : rest.flatten = []
        · obtain ⟨d2, hd2⟩ : ∃ d2, Nat.succ d - (x :: xs).length = Nat.succ d2 :=
            ⟨Nat.succ d - (x :: xs).length - 1, by omega⟩
          rw [hd2]
          rw [readLoop_flush_acc rest fuel d2 closed events (acc ++ x :: xs)
            (by simp) hj (by omega)]
          refine ⟨[], [], ?_, ?_, Nat.zero_le _⟩
          · rw [hj, List.append_nil, List.take_of_length_le hlen]
          · rw [hj, List.append_nil, List.drop_eq_nil_of_le hlen]
            simp
        · obtain ⟨h', r', heq, hrest, hrlen⟩ :=
            ih (Nat.succ d - (x :: xs).length) [] rest closed (acc ++ x :: xs) events
              (by simpa using hj) (by omega) (by simp at hle ⊢; omega)
          simp only [List.nil_append] at heq hrest
          refine ⟨h', r', ?_, ?_, hrlen⟩
          · rw [heq]
            rw [List.take_append_eq_append_take, List.take_of_length_le hlen]
            simp [List.append_assoc]
          · rw [hrest]
            rw [List.drop_append_eq_append_drop, List.drop_eq_nil_of_le hlen]
            simp

/-- C3: on a buffer on which `eof()` has been called (closed), with a
non-empty destination, `Read` returns `(0, io.EOF)` exactly when no unread
bytes remain; when unread bytes remain it instead drains up to `dstLen` of
them, returns them with a nil error, and leaves the remainder (so only once
the bytes are exhausted does a subsequent read report EOF). -/
theorem buffer_closed_read_drains_then_eof (b : Buf) (dstLen : Nat)
    (events : List WakeEvent) (fuel : Nat)
    (hc : b.closed = true) (hd : dstLen ≠ 0)
    (hf : fuel ≥ dstLen + b.rest.length + 2) :
    (bufRead b dstLen events fuel = .ret [] (some .eofErr) ⟨[], [], true⟩ false ↔
      b.head ++ b.rest.flatten = []) ∧
    (b.head ++ b.rest.flatten ≠ [] →
      ∃ h' r', bufRead b dstLen events fuel =
          .ret ((b.head ++ b.rest.flatten).take dstLen) none ⟨h', r', true⟩ true ∧
        h' ++ r'.flatten = (b.head ++ b.rest.flatten).drop dstLen) := by
  obtain ⟨head, rest, closed⟩ := b
  simp only at hc hf ⊢
  subst hc
  constructor
  · constructor
    · intro h
      by_contra hne
      obtain ⟨h', r', heq, -, -⟩ :=
        readLoop_drain fuel dstLen head rest true [] events hne hd hf
      rw [bufRead] at h
      rw [heq] at h
      injection h with h1 h2 h3 h4
      exact Bool.noConfusion h4
    · intro hj
      obtain ⟨hh, hr⟩ := List.append_eq_nil.mp hj
      subst hh
      obtain ⟨d, rfl⟩ : ∃ d, dstLen = Nat.succ d := ⟨dstLen - 1, by omega⟩
      exact readLoop_closed_empty_eof rest fuel d events hr (by omega)
  · intro hne
    obtain ⟨h', r', heq, hrest, -⟩ :=
      readLoop_drain fuel dstLen head rest true [] events hne hd hf
    exact ⟨h', r', by simpa using heq, hrest⟩

/-- Witness for C3: the closed buffer holding the single byte 7 read with a
1-byte destination returns the byte with a nil error (not EOF), and the next
read (empty, closed) returns EOF. -/
theorem buffer_closed_read_drains_then_eof_witness :
    (bufRead ⟨[7], [], true⟩ 1 [] 4 = .ret [] (some .eofErr) ⟨[], [], true⟩ false ↔
      ([7] : List Nat) ++ ([] : List (List Nat)).flatten = []) ∧
    (([7] : List Nat) ++ ([] : List (List Nat)).flatten ≠ [] →
      ∃ h' r', bufRead ⟨[7], [], true⟩ 1 [] 4 =
          .ret ((([7] : List Nat) ++ ([] : List (List Nat)).flatten).take 1) none
            ⟨h', r', true⟩ true ∧
        h' ++ r'.flatten = (([7] : List Nat) ++ ([] : List (List Nat)).flatten).drop 1) :=
  buffer_closed_read_drains_then_eof ⟨[7], [], true⟩ 1 [] 4 rfl (by decide) (by decide)

/-- C9: `write` called after `eof()` still appends its slice (the closed
flag does not gate `write`), and the next `Read` returns exactly those bytes
with a nil error; only the read after that, with the buffer drained, reports
EOF. -/
theorem buffer_write_after_eof_delivers (bs : List Nat) (dstLen fuel : Nat)
    (events : List WakeEvent) (hb : bs ≠ []) (hlen : bs.length ≤ dstLen)
    (hf : fuel ≥ dstLen + 3) :
    bufWrite (bufEof newBuffer) bs = ⟨[], [bs], true⟩ ∧
    ∃ h' r', bufRead (bufWrite (bufEof newBuffer) bs) dstLen events fuel =
        .ret bs none ⟨h', r', true⟩ true ∧
      h' = [] ∧ r'.flatten = [] ∧
      bufRead ⟨h', r', true⟩ dstLen events fuel =
        .ret [] (some .eofErr) ⟨[], [], true⟩ false := by
  have hd : dstLen ≠ 0 := by
    intro h
    subst h
    exact hb (List.length_eq_zero.mp (Nat.le_zero.mp hlen))
  have hav : ([] : List Nat) ++ ([bs] : List (List Nat)).flatten ≠ [] := by
    simpa using hb
  obtain ⟨h', r', heq, hrest, hrlen⟩ :=
    readLoop_drain fuel dstLen [] [bs] true [] events hav hd (by simp; omega)
  simp only [List.nil_append, List.flatten_cons, List.flatten_nil,
    List.append_nil] at heq hrest
  rw [List.take_of_length_le hlen] at heq
  rw [List.drop_eq_nil_of_le hlen] at hrest
  obtain ⟨hh, hr⟩ := List.append_eq_nil.mp hrest
  subst hh
  refine ⟨rfl, [], r', heq, rfl, hr, ?_⟩
  obtain ⟨d, rfl⟩ : ∃ d, dstLen = Nat.succ d := ⟨dstLen - 1, by omega⟩
  show readLoop fuel (Nat.succ d) [] r' true [] events = _
  exact readLoop_closed_empty_eof r' fuel d events hr (by simp at hrlen; omega)

/-- Witness for C9: after `eof()` then `write([1,2])`, a 2-byte read returns
[1,2] with a nil error and the following read on the drained buffer returns
EOF. -/
theorem buffer_write_after_eof_delivers_witness :
    bufWrite (bufEof newBuffer) [1, 2] = ⟨[], [[1, 2]], true⟩ ∧
    ∃ h' r', bufRead (bufWrite (bufEof newBuffer) [1, 2]) 2 [] 5 =
        .ret [1, 2] none ⟨h', r', true⟩ true ∧
      h' = [] ∧ r'.flatten = [] ∧
      bufRead ⟨h', r', true⟩ 2 [] 5 =
        .ret [] (some .eofErr) ⟨[], [], true⟩ false :=
  buffer_write_after_eof_delivers [1, 2] 2 5 [] (by decide) (by decide) (by decide)

/-!
### Certificate engine

The certificate engine (`ParseAuthorizedKey`, `MarshalAuthorizedKey`,
`Certificate`, `CertChecker`) is code of this repository that is not among
the given source files — only its tests (certs_test.go) are.  It is
therefore modelled from the spec: the authorized-keys line format
`<algo> <base64-blob> [comment]` with a trailing newline added by marshal,
the SSH wire encoding of the certificate's fields in the data-model's order,
name-ordered critical-option and extension blocks whose empty values are
zero-length SSH strings, and strict (canonical) base64.  One subject-key
variant (ed25519, whose key material is a single SSH string) stands for the
key; bytes are `Nat` values below 256.
-/

/-- ASCII bytes of a string literal. -/
def ascii (s : String) : List Nat := s.data.map Char.toNat

/-- Well-formed byte lists: every value below 256. -/
def wfBytes (l : List Nat) : Prop := ∀ b ∈ l, b < 256

instance (l : List Nat) : Decidable (wfBytes l) :=
  decidable_of_iff (∀ b ∈ l, b < 256) Iff.rfl

/-- Modelled from the spec: the SSH wire format's big-endian uint32
(RFC 4251), used for lengths and `cert_type`. -/
def writeU32 (n : Nat) : List Nat :=
  [n / 16777216 % 256, n / 65536 % 256, n / 256 % 256, n % 256]

/-- Modelled from the spec: read a big-endian uint32. -/
def readU32 : List Nat → Option (Nat × List Nat)
  | a :: b :: c :: e :: r => some ((((a * 256 + b) * 256 + c) * 256 + e), r)
  | _ => none

/-- Modelled from the spec: the wire format's big-endian uint64, used for
`serial`, `valid_after` and `valid_before`. -/
def writeU64 (n : Nat) : List Nat :=
  writeU32 (n / 4294967296) ++ writeU32 (n % 4294967296)

/-- Modelled from the spec: read a big-endian uint64. -/
def readU64 (l : List Nat) : Option (Nat × List Nat) :=
  (readU32 l).bind fun hi =>
    (readU32 hi.2).bind fun lo => some (hi.1 * 4294967296 + lo.1, lo.2)

/-- Modelled from the spec: an SSH string, a uint32 length followed by that
many bytes. -/
def writeString (s : List Nat) : List Nat := writeU32 s.length ++ s

/-- Modelled from the spec: read an SSH string. -/
def readString (l : List Nat) : Option (List Nat × List Nat) :=
  (readU32 l).bind fun nr =>
    if nr.1 ≤ nr.2.length then some (nr.2.take nr.1, nr.2.drop nr.1) else none

theorem readU32_exact : ∀ l n r, wfBytes l → readU32 l = some (n, r) →
    writeU32 n ++ r = l ∧ n < 4294967296 ∧ wfBytes r := by
  intro l n r hwf h
  match l with
  | [] => simp [readU32] at h
  | [_] => simp [readU32] at h
  | [_, _] => simp [readU32] at h
  | [_, _, _] => simp [readU32] at h
  | a :: b :: c :: e :: rest =>
    simp only [readU32] at h
    injection h with h1
    injection h1 with hv hr
    subst hv; subst hr
    have ha : a < 256 := hwf a (by simp)
    have hb : b < 256 := hwf b (by simp)
    have hc : c < 256 := hwf c (by simp)
    have he : e < 256 := hwf e (by simp)
    refine ⟨?_, by omega, fun x hx => hwf x (by simp [hx])⟩
    simp only [writeU32, List.cons_append, List.nil_append, List.cons.injEq]
    refine ⟨by omega, by omega, by omega, by omega, trivial⟩

theorem readU64_exact : ∀ l n r, wfBytes l → readU64 l = some (n, r) →
    writeU64 n ++ r = l ∧ n < 18446744073709551616 ∧ wfBytes r := by
  intro l n r hwf h
  simp only [readU64, Option.bind_eq_some] at h
  obtain ⟨⟨hi, r1⟩, hhi, ⟨⟨lo, r2⟩, hlo, heq⟩⟩ := h
  injection heq with h1
  injection h1 with hv hr
  subst hv; subst hr
  obtain ⟨e1, b1, w1⟩ := readU32_exact l hi r1 hwf hhi
  obtain ⟨e2, b2, w2⟩ := readU32_exact r1 lo r2 w1 hlo
  refine ⟨?_, by omega, w2⟩
  rw [writeU64]
  have hdiv : (hi * 4294967296 + lo) / 4294967296 = hi := by omega
  have hmod : (hi * 4294967296 + lo) % 4294967296 = lo := by omega
  rw [hdiv, hmod, List.append_assoc, e2, e1]

theorem readString_exact : ∀ l s r, wfBytes l → readString l = some (s, r) →
    writeString s ++ r = l ∧ wfBytes s ∧ wfBytes r ∧
      l.length = s.length + r.length + 4 := by
  intro l s r hwf h
  simp only [readString, Option.bind_eq_some] at h
  obtain ⟨⟨n, rr⟩, hn, heq⟩ := h
  dsimp only at heq
  by_cases hle : n ≤ rr.length
  · rw [if_pos hle] at heq
    injection heq with h1
    injection h1 with hs hr
    obtain ⟨e1, b1, w1⟩ := readU32_exact l n rr hwf hn
    have hlen : (rr.take n).length = n := by
      rw [List.length_take]
      omega
    subst hs; subst hr
    refine ⟨?_, fun x hx => w1 x (List.take_subset n rr hx),
      fun x hx => w1 x (List.drop_subset n rr hx), ?_⟩
    · rw [writeString, hlen, List.append_assoc, List.take_append_drop, e1]
    · have : l.length = (writeU32 n).length + rr.length := by
        rw [← e1, List.length_append]
      simp [writeU32] at this
      rw [hlen, List.length_drop]
      omega
  · rw [if_neg hle] at heq
    exact Option.noConfusion heq

/-- Modelled from the spec: the base64 value of an ASCII character (None
outside the alphabet; `=` (61) is handled by the decoder). -/
def b64dec (c : Nat) : Option Nat :=
  if 65 ≤ c ∧ c ≤ 90 then some (c - 65)
  else if 97 ≤ c ∧ c ≤ 122 then some (c - 71)
  else if 48 ≤ c ∧ c ≤ 57 then some (c + 4)
  else if c = 43 then some 62
  else if c = 47 then some 63
  else none

/-- Modelled from the spec: the ASCII character of a base64 value. -/
def b64enc (v : Nat) : Nat :=
  if v < 26 then 65 + v
  else if v < 52 then 71 + v
  else if v < 62 then v - 4
  else if v = 62 then 43
  else 47

theorem b64dec_enc : ∀ c v, b64dec c = some v → b64enc v = c ∧ v < 64 := by
  intro c v h
  simp only [b64dec] at h
  split_ifs at h with h1 h2 h3 h4 h5 <;>
    (injection h with hv; subst hv) <;>
    refine ⟨?_, by omega⟩ <;>
    (simp only [b64enc]; split_ifs <;> omega)

/-- Modelled from the spec: base64 encoding, 3 bytes to 4 characters, padded
with `=` (61). -/
def b64encode : List Nat → List Nat
  | [] => []
  | [a] => [b64enc (a / 4), b64enc (a % 4 * 16), 61, 61]
  | [a, b] => [b64enc (a / 4), b64enc (a % 4 * 16 + b / 16), b64enc (b % 16 * 4), 61]
  | a :: b :: c :: rest =>
    b64enc (a / 4) :: b64enc (a % 4 * 16 + b / 16) :: b64enc (b % 16 * 4 + c / 64) ::
      b64enc (c % 64) :: b64encode rest

/-- Modelled from the spec: strict base64 decoding of whole 4-character
groups, `=` only at the very end, non-canonical trailing bits rejected. -/
def b64decode : List Nat → Option (List Nat)
  | [] => some []
  | c1 :: c2 :: c3 :: c4 :: rest =>
    (b64dec c1).bind fun v1 =>
    (b64dec c2).bind fun v2 =>
    if c4 = 61 then
      if rest ≠ [] then none
      else if c3 = 61 then
        if v2 % 16 = 0 then some [v1 * 4 + v2 / 16] else none
      else
        (b64dec c3).bind fun v3 =>
          if v3 % 4 = 0 then some [v1 * 4 + v2 / 16, v2 % 16 * 16 + v3 / 4] else none
    else
      (b64dec c3).bind fun v3 =>
      (b64dec c4).bind fun v4 =>
      (b64decode rest).bind fun bs =>
        some ((v1 * 4 + v2 / 16) :: (v2 % 16 * 16 + v3 / 4) :: (v3 % 4 * 64 + v4) :: bs)
  | _ => none

theorem b64decode_exact_aux : ∀ n t bs, t.length ≤ n → b64decode t = some bs →
    b64encode bs = t ∧ wfBytes bs := by
  intro n
  induction n with
  | zero =>
    intro t bs hlen h
    have ht : t = [] := List.length_eq_zero.mp (Nat.le_zero.mp hlen)
    subst ht
    simp only [b64decode] at h
    injection h with h1
    subst h1
    exact ⟨rfl, fun x hx => absurd hx (List.not_mem_nil x)⟩
  | succ n ih =>
    intro t bs h0 h
    match t with
    | [] =>
      simp only [b64decode] at h
      injection h with h1
      subst h1
      exact ⟨rfl, fun x hx => absurd hx (List.not_mem_nil x)⟩
    | [c1] => simp [b64decode] at h
    | [c1, c2] => simp [b64decode] at h
    | [c1, c2, c3] => simp [b64decode] at h
    | c1 :: c2 :: c3 :: c4 :: rest =>
      simp only [b64decode, Option.bind_eq_some] at h
      obtain ⟨v1, hv1, v2, hv2, h⟩ := h
      obtain ⟨he1, hb1⟩ := b64dec_enc c1 v1 hv1
      obtain ⟨he2, hb2⟩ := b64dec_enc c2 v2 hv2
      by_cases hc4 : c4 = 61
      · rw [if_pos hc4] at h
        by_cases hrest : rest ≠ []
        · rw [if_pos hrest] at h
          exact Option.noConfusion h
        · rw [if_neg hrest] at h
          push_neg at hrest
          subst hrest; subst hc4
          by_cases hc3 : c3 = 61
          · rw [if_pos hc3] at h
            subst hc3
            by_cases hm : v2 % 16 = 0
            · rw [if_pos hm] at h
              injection h with h1
              subst h1
              refine ⟨?_, by intro x hx; simp at hx; omega⟩
              have ha : (v1 * 4 + v2 / 16) / 4 = v1 := by omega
              have hb : (v1 * 4 + v2 / 16) % 4 * 16 = v2 := by omega
              simp only [b64encode, ha, hb, he1, he2]
            · rw [if_neg hm] at h
              exact Option.noConfusion h
          · rw [if_neg hc3] at h
            simp only [Option.bind_eq_some] at h
            obtain ⟨v3, hv3, h⟩ := h
            obtain ⟨he3, hb3⟩ := b64dec_enc c3 v3 hv3
            by_cases hm : v3 % 4 = 0
            · rw [if_pos hm] at h
              injection h with h1
              subst h1
              refine ⟨?_, by intro x hx; simp at hx; rcases hx with hx | hx <;> omega⟩
              have ha : (v1 * 4 + v2 / 16) / 4 = v1 := by omega
              have hb : (v1 * 4 + v2 / 16) % 4 * 16 + (v2 % 16 * 16 + v3 / 4) / 16 = v2 := by
                omega
              have hc : (v2 % 16 * 16 + v3 / 4) % 16 * 4 = v3 := by omega
              simp only [b64encode, ha, hb, hc, he1, he2, he3]
            · rw [if_neg hm] at h
              exact Option.noConfusion h
      · rw [if_neg hc4] at h
        simp only [Option.bind_eq_some] at h
        obtain ⟨v3, hv3, v4, hv4, bs', hbs', heq⟩ := h
        obtain ⟨he3, hb3⟩ := b64dec_enc c3 v3 hv3
        obtain ⟨he4, hb4⟩ := b64dec_enc c4 v4 hv4
        obtain ⟨ihe, ihw⟩ := ih rest bs' (by simp at h0; omega) hbs'
        injection heq with h1
        subst h1
        constructor
        · have ha : (v1 * 4 + v2 / 16) / 4 = v1 := by omega
          have hb : (v1 * 4 + v2 / 16) % 4 * 16 + (v2 % 16 * 16 + v3 / 4) / 16 = v2 := by
            omega
          have hc : (v2 % 16 * 16 + v3 / 4) % 16 * 4 + (v3 % 4 * 64 + v4) / 64 = v3 := by
            omega
          have he : (v3 % 4 * 64 + v4) % 64 = v4 := by omega
          simp only [b64encode, ha, hb, hc, he, he1, he2, he3, he4, ihe]
        · intro x hx
          simp at hx
          rcases hx with hx | hx | hx | hx
          · omega
          · omega
          · omega
          · exact ihw x hx

theorem b64decode_exact (t bs : List Nat) (h : b64decode t = some bs) :
    b64encode bs = t ∧ wfBytes bs :=
  b64decode_exact_aux t.length t bs (Nat.le_refl _) h

/-- Modelled from the spec: the inner data of a critical-option or extension
tuple — an empty value serialises as a zero-length SSH string, a non-empty
value as an SSH string holding the value. -/
def optData (v : List Nat) : List Nat := if v = [] then [] else writeString v

/-- Modelled from the spec: one (name, value) tuple of the option blocks. -/
def writeOpt (p : List Nat × List Nat) : List Nat :=
  writeString p.1 ++ writeString (optData p.2)

/-- Modelled from the spec: a critical-options or extensions block, the
tuples in the stored (name-sorted) order. -/
def writeOpts (os : List (List Nat × List Nat)) : List Nat := (os.map writeOpt).flatten

/-- Modelled from the spec: the `valid_principals` block, a sequence of SSH
strings. -/
def writeNames (ps : List (List Nat)) : List Nat := (ps.map writeString).flatten

/-- Modelled from the spec: parse SSH strings until the block is exhausted
(fuel-based; fuel = the block length always suffices). -/
def readAllStrings : Nat → List Nat → Option (List (List Nat))
  | _, [] => some []
  | 0, _ :: _ => none
  | Nat.succ fuel, l =>
    (readString l).bind fun sr =>
      (readAllStrings fuel sr.2).bind fun rest2 => some (sr.1 :: rest2)

/-- Modelled from the spec: decode one option's data canonically — empty
data is the empty value, anything else must be exactly one SSH string
holding a non-empty value. -/
def readOptValue (data : List Nat) : Option (List Nat) :=
  if data = [] then some []
  else
    (readString data).bind fun vr =>
      if vr.2 = [] then (if vr.1 = [] then none else some vr.1) else none

/-- Modelled from the spec: parse (name, data) tuples until the block is
exhausted. -/
def readOpts : Nat → List Nat → Option (List (List Nat × List Nat))
  | _, [] => some []
  | 0, _ :: _ => none
  | Nat.succ fuel, l =>
    (readString l).bind fun nr =>
    (readString nr.2).bind fun dr =>
    (readOptValue dr.1).bind fun v =>
    (readOpts fuel dr.2).bind fun os => some ((nr.1, v) :: os)

/-- Lexicographic strict order on byte strings (shorter prefix first). -/
def bytesLtB : List Nat → List Nat → Bool
  | [], [] => false
  | [], _ :: _ => true
  | _ :: _, [] => false
  | a :: as, b :: bs => if a < b then true else if a = b then bytesLtB as bs else false

/-- The option tuples are strictly ordered by name, as the spec's data model
requires of the `critical_options` and `extensions` mappings. -/
def sortedNames : List (List Nat × List Nat) → Bool
  | [] => true
  | [_] => true
  | a :: b :: t => bytesLtB a.1 b.1 && sortedNames (b :: t)

/-- Modelled from the spec: an OpenSSH certificate (data model section),
with the ed25519 subject-key variant standing for `key` (its key material is
the single SSH string `pubkey`). -/
structure SshCert where
  nonce : List Nat
  pubkey : List Nat
  serial : Nat
  certType : Nat
  keyId : List Nat
  principals : List (List Nat)
  validAfter : Nat
  validBefore : Nat
  criticalOptions : List (List Nat × List Nat)
  extensions : List (List Nat × List Nat)
  reserved : List Nat
  signatureKey : List Nat
  signature : List Nat
deriving DecidableEq

/-- The certificate algorithm token of the modelled key variant. -/
def certAlgoName : List Nat := ascii "ssh-ed25519-cert-v01@openssh.com"

/-- Modelled from the spec: the canonical wire encoding of a certificate —
algorithm name, nonce, key material, serial, type, key id, principals,
validity window, critical options, extensions, reserved, signature key,
signature, each in the SSH wire format. -/
def marshalCert (c : SshCert) : List Nat :=
  writeString certAlgoName ++ writeString c.nonce ++ writeString c.pubkey ++
  writeU64 c.serial ++ writeU32 c.certType ++ writeString c.keyId ++
  writeString (writeNames c.principals) ++ writeU64 c.validAfter ++
  writeU64 c.validBefore ++ writeString (writeOpts c.criticalOptions) ++
  writeString (writeOpts c.extensions) ++ writeString c.reserved ++
  writeString c.signatureKey ++ writeString c.signature

/-- The first half of a certificate's fields (through `valid_principals`),
as `parseCertFront` recovers them. -/
structure CertFront where
  nonce : List Nat
  pubkey : List Nat
  serial : Nat
  certType : Nat
  keyId : List Nat
  principals : List (List Nat)
deriving DecidableEq

/-- The second half of a certificate's fields (from `valid_after` on), as
`parseCertBack` recovers them. -/
structure CertBack where
  validAfter : Nat
  validBefore : Nat
  criticalOptions : List (List Nat × List Nat)
  extensions : List (List Nat × List Nat)
  reserved : List Nat
  signatureKey : List Nat
  signature : List Nat
deriving DecidableEq

/-- The wire encoding of the first half of the fields. -/
def marshalFront (f : CertFront) : List Nat :=
  writeString f.nonce ++ writeString f.pubkey ++ writeU64 f.serial ++
  writeU32 f.certType ++ writeString f.keyId ++ writeString (writeNames f.principals)

/-- The wire encoding of the second half of the fields. -/
def marshalBack (b : CertBack) : List Nat :=
  writeU64 b.validAfter ++ writeU64 b.validBefore ++
  writeString (writeOpts b.criticalOptions) ++ writeString (writeOpts b.extensions) ++
  writeString b.reserved ++ writeString b.signatureKey ++ writeString b.signature

/-- Modelled from the spec: parse the first half of the fields — nonce, key
material, serial, type, key id, principals. -/
def parseCertFront (l : List Nat) : Option (CertFront × List Nat) :=
  (readString l).bind fun noncer =>
  (readString noncer.2).bind fun pkr =>
  (readU64 pkr.2).bind fun serr =>
  (readU32 serr.2).bind fun ctr =>
  (readString ctr.2).bind fun kidr =>
  (readString kidr.2).bind fun prinr =>
  (readAllStrings prinr.1.length prinr.1).bind fun ps =>
  some (⟨noncer.1, pkr.1, serr.1, ctr.1, kidr.1, ps⟩, prinr.2)

/-- Modelled from the spec: parse the second half of the fields — validity
window, the two option blocks (which must be strictly name-sorted, as the
data model's mappings are ordered by name), reserved, signature key,
signature. -/
def parseCertBack (l : List Nat) : Option (CertBack × List Nat) :=
  (readU64 l).bind fun var1 =>
  (readU64 var1.2).bind fun vbr =>
  (readString vbr.2).bind fun cor =>
  (readOpts cor.1.length cor.1).bind fun copts =>
  (readString cor.2).bind fun exr =>
  (readOpts exr.1.length exr.1).bind fun exts =>
  (readString exr.2).bind fun resr =>
  (readString resr.2).bind fun skr =>
  (readString skr.2).bind fun sigr =>
  if sortedNames copts && sortedNames exts then
    some (⟨var1.1, vbr.1, copts, exts, resr.1, skr.1, sigr.1⟩, sigr.2)
  else none

/-- Modelled from the spec: parse a certificate blob.  The algorithm prefix
must match, the fields follow in the data model's order, and no bytes may
remain after the signature. -/
def parseCert (blob : List Nat) : Option SshCert :=
  (readString blob).bind fun ar =>
  if ar.1 = certAlgoName then
    (parseCertFront ar.2).bind fun fr =>
    (parseCertBack fr.2).bind fun bk =>
    if bk.2 = [] then
      some ⟨fr.1.nonce, fr.1.pubkey, fr.1.serial, fr.1.certType, fr.1.keyId,
        fr.1.principals, bk.1.validAfter, bk.1.validBefore, bk.1.criticalOptions,
        bk.1.extensions, bk.1.reserved, bk.1.signatureKey, bk.1.signature⟩
    else none
  else none

theorem readAllStrings_exact : ∀ fuel l ps, wfBytes l → l.length ≤ fuel →
    readAllStrings fuel l = some ps → writeNames ps = l := by
  intro fuel
  induction fuel with
  | zero =>
    intro l ps hwf hlen h
    have hl : l = [] := List.length_eq_zero.mp (Nat.le_zero.mp hlen)
    subst hl
    simp only [readAllStrings] at h
    injection h with h1
    subst h1
    rfl
  | succ fuel ih =>
    intro l ps hwf hlen h
    match l with
    | [] =>
      simp only [readAllStrings] at h
      injection h with h1
      subst h1
      rfl
    | c :: cs =>
      simp only [readAllStrings, Option.bind_eq_some] at h
      obtain ⟨⟨s1, r1⟩, hs1, ps2, hps2, heq⟩ := h
      dsimp only at hps2 heq
      obtain ⟨e1, w1s, w1r, hl1⟩ := readString_exact (c :: cs) s1 r1 hwf hs1
      injection heq with h1
      subst h1
      have := ih r1 ps2 w1r (by omega) hps2
      simp only [writeNames, List.map_cons, List.flatten_cons]
      rw [show (ps2.map writeString).flatten = writeNames ps2 from rfl, this, e1]

theorem readOptValue_exact : ∀ data v, wfBytes data → readOptValue data = some v →
    optData v = data := by
  intro data v hwf h
  simp only [readOptValue] at h
  by_cases hd : data = []
  · rw [if_pos hd] at h
    injection h with h1
    subst h1
    rw [optData, if_pos rfl, hd]
  · rw [if_neg hd] at h
    simp only [Option.bind_eq_some] at h
    obtain ⟨⟨v1, r1⟩, hv1, heq⟩ := h
    dsimp only at heq
    obtain ⟨e1, w1s, w1r, -⟩ := readString_exact data v1 r1 hwf hv1
    by_cases hr1 : r1 = []
    · rw [if_pos hr1] at heq
      by_cases hv : v1 = []
      · rw [if_pos hv] at heq
        exact Option.noConfusion heq
      · rw [if_neg hv] at heq
        injection heq with h1
        subst h1
        rw [optData, if_neg hv, ← e1, hr1, List.append_nil]
    · rw [if_neg hr1] at heq
      exact Option.noConfusion heq

theorem readOpts_exact : ∀ fuel l os, wfBytes l → l.length ≤ fuel →
    readOpts fuel l = some os → writeOpts os = l := by
  intro fuel
  induction fuel with
  | zero =>
    intro l os hwf hlen h
    have hl : l = [] := List.length_eq_zero.mp (Nat.le_zero.mp hlen)
    subst hl
    simp only [readOpts] at h
    injection h with h1
    subst h1
    rfl
  | succ fuel ih =>
    intro l os hwf hlen h
    match l with
    | [] =>
      simp only [readOpts] at h
      injection h with h1
      subst h1
      rfl
    | c :: cs =>
      simp only [readOpts, Option.bind_eq_some] at h
      obtain ⟨⟨n1, r1⟩, hn1, ⟨d1, r2⟩, hd1, v, hv, os2, hos2, heq⟩ := h
      dsimp only at hd1 hv hos2 heq
      obtain ⟨e1, w1s, w1r, hl1⟩ := readString_exact (c :: cs) n1 r1 hwf hn1
      obtain ⟨e2, w2s, w2r, hl2⟩ := readString_exact r1 d1 r2 w1r hd1
      have hval := readOptValue_exact d1 v w2s hv
      injection heq with h1
      subst h1
      have := ih r2 os2 w2r (by omega) hos2
      simp only [writeOpts, List.map_cons, List.flatten_cons]
      rw [show (os2.map writeOpt).flatten = writeOpts os2 from rfl, this]
      simp only [writeOpt]
      rw [hval, List.append_assoc, e2, e1]

/-- Exactness of the front-half parser. -/
theorem parseCertFront_exact : ∀ l f r, wfBytes l → parseCertFront l = some (f, r) →
    marshalFront f ++ r = l ∧ wfBytes r := by
  intro l f r hwf h
  simp only [parseCertFront, Option.bind_eq_some] at h
  obtain ⟨⟨nonce, r1⟩, h1, h⟩ := h
  dsimp only at h
  obtain ⟨ew1, ws1, wr1, -⟩ := readString_exact l nonce r1 hwf h1
  obtain ⟨⟨pk, r2⟩, h2, h⟩ := h
  dsimp only at h
  obtain ⟨ew2, ws2, wr2, -⟩ := readString_exact r1 pk r2 wr1 h2
  obtain ⟨⟨serial, r3⟩, h3, h⟩ := h
  dsimp only at h
  obtain ⟨ew3, -, wr3⟩ := readU64_exact r2 serial r3 wr2 h3
  obtain ⟨⟨ctype, r4⟩, h4, h⟩ := h
  dsimp only at h
  obtain ⟨ew4, -, wr4⟩ := readU32_exact r3 ctype r4 wr3 h4
  obtain ⟨⟨kid, r5⟩, h5, h⟩ := h
  dsimp only at h
  obtain ⟨ew5, ws5, wr5, -⟩ := readString_exact r4 kid r5 wr4 h5
  obtain ⟨⟨pblob, r6⟩, h6, h⟩ := h
  dsimp only at h
  obtain ⟨ew6, ws6, wr6, -⟩ := readString_exact r5 pblob r6 wr5 h6
  obtain ⟨ps, hps, heq⟩ := h
  have eps := readAllStrings_exact pblob.length pblob ps ws6 (Nat.le_refl _) hps
  injection heq with h1
  injection h1 with hf hr
  subst hf; subst hr
  subst eps
  subst ew1; subst ew2; subst ew3; subst ew4; subst ew5; subst ew6
  refine ⟨?_, wr6⟩
  simp [marshalFront, List.append_assoc]

/-- Exactness of the back-half parser. -/
theorem parseCertBack_exact : ∀ l b r, wfBytes l → parseCertBack l = some (b, r) →
    marshalBack b ++ r = l ∧ wfBytes r := by
  intro l b r hwf h
  simp only [parseCertBack, Option.bind_eq_some] at h
  obtain ⟨⟨va, r1⟩, h1, h⟩ := h
  dsimp only at h
  obtain ⟨ew1, -, wr1⟩ := readU64_exact l va r1 hwf h1
  obtain ⟨⟨vb, r2⟩, h2, h⟩ := h
  dsimp only at h
  obtain ⟨ew2, -, wr2⟩ := readU64_exact r1 vb r2 wr1 h2
  obtain ⟨⟨cblob, r3⟩, h3, h⟩ := h
  dsimp only at h
  obtain ⟨ew3, ws3, wr3, -⟩ := readString_exact r2 cblob r3 wr2 h3
  obtain ⟨copts, hcopts, h⟩ := h
  have ecopts := readOpts_exact cblob.length cblob copts ws3 (Nat.le_refl _) hcopts
  obtain ⟨⟨eblob, r4⟩, h4, h⟩ := h
  dsimp only at h
  obtain ⟨ew4, ws4, wr4, -⟩ := readString_exact r3 eblob r4 wr3 h4
  obtain ⟨exts, hexts, h⟩ := h
  have eexts := readOpts_exact eblob.length eblob exts ws4 (Nat.le_refl _) hexts
  obtain ⟨⟨resv, r5⟩, h5, h⟩ := h
  dsimp only at h
  obtain ⟨ew5, ws5, wr5, -⟩ := readString_exact r4 resv r5 wr4 h5
  obtain ⟨⟨sk, r6⟩, h6, h⟩ := h
  dsimp only at h
  obtain ⟨ew6, ws6, wr6, -⟩ := readString_exact r5 sk r6 wr5 h6
  obtain ⟨⟨sig, r7⟩, h7, heq⟩ := h
  dsimp only at heq
  obtain ⟨ew7, ws7, wr7, -⟩ := readString_exact r6 sig r7 wr6 h7
  by_cases hsorted : (sortedNames copts && sortedNames exts) = true
  · rw [if_pos hsorted] at heq
    injection heq with h1
    injection h1 with hb hr
    subst hb; subst hr
    subst ecopts; subst eexts
    subst ew1; subst ew2; subst ew3; subst ew4; subst ew5; subst ew6; subst ew7
    refine ⟨?_, wr7⟩
    simp [marshalBack, List.append_assoc]
  · rw [if_neg hsorted] at heq
    exact Option.noConfusion heq

/-- Exactness of the certificate parser: a blob of well-formed bytes that
parses to a certificate is exactly that certificate's canonical encoding. -/
theorem parseCert_exact : ∀ blob c, wfBytes blob → parseCert blob = some c →
    marshalCert c = blob := by
  intro blob c hwf h
  simp only [parseCert, Option.bind_eq_some] at h
  obtain ⟨⟨algo, r0⟩, h0, h⟩ := h
  dsimp only at h
  obtain ⟨ew0, ws0, wr0, -⟩ := readString_exact blob algo r0 hwf h0
  by_cases halgo : algo = certAlgoName
  · rw [if_pos halgo] at h
    simp only [Option.bind_eq_some] at h
    obtain ⟨⟨f, r1⟩, hf, h⟩ := h
    dsimp only at h
    obtain ⟨ew1, wr1⟩ := parseCertFront_exact r0 f r1 wr0 hf
    obtain ⟨⟨bk, r2⟩, hb, heq⟩ := h
    dsimp only at heq
    obtain ⟨ew2, wr2⟩ := parseCertBack_exact r1 bk r2 wr1 hb
    by_cases hr2 : r2 = []
    · rw [if_pos hr2] at heq
      injection heq with h1
      subst h1
      subst halgo
      subst hr2
      rw [List.append_nil] at ew2
      subst ew0; subst ew1; subst ew2
      simp [marshalCert, marshalFront, marshalBack, List.append_assoc]
    · rw [if_neg hr2] at heq
      exact Option.noConfusion heq
  · rw [if_neg halgo] at h
    exact Option.noConfusion h

/-- takeWhile keeps a list all of whose elements satisfy the predicate. -/
theorem takeWhile_all {p : Nat → Bool} : ∀ l : List Nat, (∀ x ∈ l, p x = true) →
    l.takeWhile p = l := by
  intro l h
  induction l with
  | nil => rfl
  | cons a as ih =>
    rw [List.takeWhile_cons, h a (List.mem_cons_self a as)]
    simp only [if_true]
    rw [ih (fun x hx => h x (List.mem_cons_of_mem a hx))]

/-- takeWhile stops exactly at the first failing element. -/
theorem takeWhile_append_stop {p : Nat → Bool} :
    ∀ (a : List Nat) (s : Nat) (b : List Nat), (∀ x ∈ a, p x = true) →
      p s = false → (a ++ s :: b).takeWhile p = a := by
  intro a
  induction a with
  | nil =>
    intro s b _ hs
    rw [List.nil_append, List.takeWhile_cons, hs]
    simp
  | cons x xs ih =>
    intro s b ha hs
    rw [List.cons_append, List.takeWhile_cons, ha x (List.mem_cons_self x xs)]
    simp only [if_true]
    rw [ih s b (fun y hy => ha y (List.mem_cons_of_mem x hy)) hs]

/-- Dropping a prefix and its one-byte separator leaves the tail. -/
theorem drop_after (a : List Nat) (s : Nat) (b : List Nat) :
    (a ++ s :: b).drop (a.length + 1) = b := by
  have h1 : a ++ s :: b = (a ++ [s]) ++ b := by simp
  have h2 : (a ++ [s]).length = a.length + 1 := by simp
  rw [h1, ← h2, List.drop_left]

/-- Modelled from the spec: `parse(authorized_key_line)` — the textual line
format `<algo> <base64-blob> [comment]`, an optional trailing newline ending
the line, everything after the newline returned as `rest`, the bytes after
the blob's separating space as the comment.  The blob must decode (strict
base64) to a certificate whose algorithm prefix matches the line's algorithm
token. -/
def parseAuthorizedKey (B : List Nat) : Option (SshCert × List Nat × List Nat) :=
  let line := B.takeWhile (· != 10)
  let rest := B.drop (line.length + 1)
  let algo := line.takeWhile (· != 32)
  let rem := line.drop (algo.length + 1)
  let blobTxt := rem.takeWhile (· != 32)
  let comment := rem.drop (blobTxt.length + 1)
  if algo = certAlgoName then
    (b64decode blobTxt).bind fun bytes =>
      (parseCert bytes).bind fun c => some (c, comment, rest)
  else none

/-- Modelled from the spec: `marshal(public_key)` — the canonical textual
line with a trailing newline (10); no comment is produced. -/
def marshalAuthorizedKey (c : SshCert) : List Nat :=
  certAlgoName ++ [32] ++ b64encode (marshalCert c) ++ [10]

/-- A small concrete certificate used for concrete evaluations: key id
"test", principal "user", `valid_before` = 2^64 - 1, empty option blocks. -/
def exampleCert : SshCert :=
  ⟨[1], [2], 5, 1, ascii "test", [ascii "user"], 0, 18446744073709551615,
    [], [], [], [3], [4]⟩

set_option maxRecDepth 100000 in
set_option maxHeartbeats 2000000 in
/-- C1 counterexample: the canonical line of `exampleCert` with the comment
" c" appended parses successfully (to `exampleCert`, comment [99], empty
rest), yet re-marshalling and trimming the newline yields the line without
the comment — not the original bytes.  So the round-trip fails on lines
carrying a comment. -/
theorem parse_marshal_comment_counterexample :
    parseAuthorizedKey ((marshalAuthorizedKey exampleCert).dropLast ++ [32, 99]) =
      some (exampleCert, [99], []) ∧
    (marshalAuthorizedKey exampleCert).dropLast ≠
      (marshalAuthorizedKey exampleCert).dropLast ++ [32, 99] := by
  constructor
  · decide
  · intro h
    have := congrArg List.length h
    simp at this

set_option maxRecDepth 100000 in
set_option maxHeartbeats 2000000 in
/-- C1 (amended): for a byte string in canonical form — exactly
`<algo> <base64-blob>` with no comment, no trailing newline or other data
(and, as the strict parser checks, canonical base64 and strictly name-sorted
option blocks) — parsing to a certificate and re-marshalling with the
trailing newline trimmed restores the input byte for byte, including the
order and values of the critical options and extensions. -/
theorem parse_marshal_canonical_roundtrip (blobTxt : List Nat) (c : SshCert)
    (comment rest : List Nat)
    (hclean : ∀ x ∈ blobTxt, x ≠ 32 ∧ x ≠ 10)
    (h : parseAuthorizedKey (certAlgoName ++ 32 :: blobTxt) = some (c, comment, rest)) :
    (marshalAuthorizedKey c).dropLast = certAlgoName ++ 32 :: blobTxt := by
  have hA10 : ∀ x ∈ certAlgoName, (x != 10) = true := by decide
  have hA32 : ∀ x ∈ certAlgoName, (x != 32) = true := by decide
  have hline : (certAlgoName ++ 32 :: blobTxt).takeWhile (· != 10) =
      certAlgoName ++ 32 :: blobTxt := by
    refine takeWhile_all _ ?_
    intro x hx
    rcases List.mem_append.mp hx with hx | hx
    · exact hA10 x hx
    · rcases List.mem_cons.mp hx with hx | hx
      · subst hx; decide
      · simpa using (hclean x hx).2
  have halgo : (certAlgoName ++ 32 :: blobTxt).takeWhile (· != 32) = certAlgoName :=
    takeWhile_append_stop certAlgoName 32 blobTxt hA32 (by decide)
  have hrem : (certAlgoName ++ 32 :: blobTxt).drop (certAlgoName.length + 1) = blobTxt :=
    drop_after certAlgoName 32 blobTxt
  have hblob : blobTxt.takeWhile (· != 32) = blobTxt := by
    refine takeWhile_all _ ?_
    intro x hx
    simpa using (hclean x hx).1
  have hcomment : blobTxt.drop (blobTxt.length + 1) = [] :=
    List.drop_eq_nil_of_le (by omega)
  have hrest : (certAlgoName ++ 32 :: blobTxt).drop
      ((certAlgoName ++ 32 :: blobTxt).length + 1) = [] :=
    List.drop_eq_nil_of_le (by omega)
  simp only [parseAuthorizedKey] at h
  rw [hline, halgo, hrem, hblob, hcomment, hrest, if_pos rfl] at h
  simp only [Option.bind_eq_some] at h
  obtain ⟨bytes, hbytes, c2, hc2, heq⟩ := h
  injection heq with h1
  injection h1 with hc h2
  injection h2 with hcom hrest2
  subst hc
  obtain ⟨henc, hwfb⟩ := b64decode_exact blobTxt bytes hbytes
  have hm := parseCert_exact bytes c2 hwfb hc2
  rw [marshalAuthorizedKey]
  have hsplit : certAlgoName ++ [32] ++ b64encode (marshalCert c2) ++ [10] =
      (certAlgoName ++ [32] ++ b64encode (marshalCert c2)) ++ [10] := by
    simp [List.append_assoc]
  rw [hsplit, List.dropLast_concat, hm, henc]
  simp

set_option maxRecDepth 100000 in
set_option maxHeartbeats 2000000 in
/-- Witness for C1's amended theorem: the canonical line of `exampleCert`
parses back to it with no comment and no rest, and re-marshalling trimmed
restores the line. -/
theorem parse_marshal_canonical_roundtrip_witness :
    (marshalAuthorizedKey exampleCert).dropLast =
      certAlgoName ++ 32 :: b64encode (marshalCert exampleCert) :=
  parse_marshal_canonical_roundtrip (b64encode (marshalCert exampleCert)) exampleCert
    [] [] (by decide) (by decide)


/-- Modelled from the spec: the time-validity step of CheckCert —
`valid_after ≤ t < valid_before`, and `valid_before = 2^64 - 1` disables the
upper bound. -/
def certTimeOk (va vb t : Nat) : Bool :=
  decide (va ≤ t) && (decide (vb = 18446744073709551615) || decide (t < vb))

/-- Modelled from the spec: the principal step — the requested principal is
among `valid_principals`, or that list is empty ("any"). -/
def principalOk (p : List Nat) (ps : List (List Nat)) : Bool :=
  ps.isEmpty || ps.contains p

/-- Modelled from the spec: server-side CheckCert for user authentication
(the spec's user-auth steps 1-6): signature verification and the authority
policy are oracles, `cert_type` must be User = 1, the principal allowed,
every critical option understood, and the clock inside the validity
window. -/
def checkCertUser (sigOk : Bool) (isUserAuthority : List Nat → Bool)
    (understood : List Nat → Bool) (principal : List Nat) (c : SshCert)
    (t : Nat) : Bool :=
  sigOk && isUserAuthority c.signatureKey && decide (c.certType = 1) &&
    principalOk principal c.principals &&
    c.criticalOptions.all (fun o => understood o.1) &&
    certTimeOk c.validAfter c.validBefore t

/-- The concrete certificate of the spec's S3 scenario: `valid_after` 50,
`valid_before` 100, principal "user". -/
def timeCert : SshCert := { exampleCert with validAfter := 50, validBefore := 100 }

/-- C2: for the S3 certificate (valid_after 50, valid_before 100, principal
"user"), CheckCert succeeds at clock t exactly when 50 ≤ t < 100; the five
sample times give fail/ok/ok/fail/fail; and `valid_before = 2^64 - 1`
disables the upper bound. -/
theorem check_cert_time_validity :
    (∀ t, checkCertUser true (fun _ => true) (fun _ => true) (ascii "user")
        timeCert t = true ↔ (50 ≤ t ∧ t < 100)) ∧
    checkCertUser true (fun _ => true) (fun _ => true) (ascii "user") timeCert 25 = false ∧
    checkCertUser true (fun _ => true) (fun _ => true) (ascii "user") timeCert 50 = true ∧
    checkCertUser true (fun _ => true) (fun _ => true) (ascii "user") timeCert 99 = true ∧
    checkCertUser true (fun _ => true) (fun _ => true) (ascii "user") timeCert 100 = false ∧
    checkCertUser true (fun _ => true) (fun _ => true) (ascii "user") timeCert 125 = false ∧
    (∀ t, checkCertUser true (fun _ => true) (fun _ => true) (ascii "user")
        { timeCert with validBefore := 18446744073709551615 } t = true ↔ 50 ≤ t) := by
  refine ⟨?_, by decide, by decide, by decide, by decide, by decide, ?_⟩
  · intro t
    simp [checkCertUser, certTimeOk, principalOk, timeCert, exampleCert, ascii]
  · intro t
    simp [checkCertUser, certTimeOk, principalOk, timeCert, exampleCert, ascii]

/-- The host part of a dial address `host:port`. -/
def hostOf (addr : List Nat) : List Nat := addr.takeWhile (· != 58)

/-- Modelled from the spec: the client-side host-key check of a certificate
(CheckHostKey): `cert_type` must be Host = 2, the signing authority must be
trusted for the address used to dial (`is_host_authority(signature_key,
addr)`), the hostname part of that address must be among the principals, and
the clock must be inside the validity window; signature verification is the
sigOk oracle. -/
def checkHostKeyCert (isHostAuthority : List Nat → List Nat → Bool)
    (addr : List Nat) (c : SshCert) (sigOk : Bool) (t : Nat) : Bool :=
  decide (c.certType = 2) && sigOk && isHostAuthority c.signatureKey addr &&
    principalOk (hostOf addr) c.principals &&
    certTimeOk c.validAfter c.validBefore t

/-- The host certificate of the spec's S4 scenario: principals "hostname",
"hostname.domain", "otherhost"; Host type; no expiry. -/
def hostCert : SshCert :=
  ⟨[1], [2], 0, 2, ascii "host",
    [ascii "hostname", ascii "hostname.domain", ascii "otherhost"],
    0, 18446744073709551615, [], [], [], ascii "ca-key", [4]⟩

/-- The S4 authority oracle: the client trusts the signing key only for the
address hostname:22. -/
def s4Authority (k addr : List Nat) : Bool :=
  decide (k = ascii "ca-key") && decide (addr = ascii "hostname:22")

/-- C6: dialing hostname:22 succeeds; dialing otherhost:22 fails as a policy
failure — the authority oracle rejects that address — even though the
certificate names "otherhost" as a principal; dialing lasthost:22 fails; and
the check always consults the authority oracle at exactly the signature key
and the address used to dial (the oracle is the only non-constant input
besides sigOk and the clock). -/
theorem host_cert_address_binding :
    checkHostKeyCert s4Authority (ascii "hostname:22") hostCert true 0 = true ∧
    checkHostKeyCert s4Authority (ascii "otherhost:22") hostCert true 0 = false ∧
    s4Authority hostCert.signatureKey (ascii "otherhost:22") = false ∧
    principalOk (hostOf (ascii "otherhost:22")) hostCert.principals = true ∧
    checkHostKeyCert s4Authority (ascii "lasthost:22") hostCert true 0 = false ∧
    (∀ o addr sigOk t, checkHostKeyCert o addr hostCert sigOk t =
      (sigOk && o hostCert.signatureKey addr &&
        principalOk (hostOf addr) hostCert.principals &&
        certTimeOk 0 18446744073709551615 t)) := by
  refine ⟨by decide, by decide, by decide, by decide, by decide, ?_⟩
  intro o addr sigOk t
  simp [checkHostKeyCert, hostCert]

/-!
### Tricorder supervisor (tri.go)

The supervisor's state and its reconnect / open-channel operations.  Client,
transport, channels and cancellation handles are identified by Nat handles;
the channel map is an association list in insertion order.
-/

/-- The target endpoint, `UHP` in the source (user + host:port). -/
structure UHP where
  user : List Nat
  hostPort : List Nat
deriving DecidableEq

/-- `Tricorder`'s mutable state owned by the reconnect loop (tri.go): the
current client and transport (none while down), the endpoint, and the map
from live channels to their context-cancellation handles. -/
structure TriState where
  cli : Option Nat
  nc : Option Nat
  uhp : Option UHP
  sshChannels : List (Nat × Nat)
deriving DecidableEq

/-- Observable side effects the supervisor performs on channels. -/
inductive SupAction where
  | chClose : Nat → SupAction
  | cancelFire : Nat → SupAction
deriving DecidableEq

/-- `Tricorder.closeChannels` (tri.go lines 59-67): call `Close()` and the
cancel handle of every channel in the map, then replace the map with a fresh
empty one. -/
def closeChannels (s : TriState) : TriState × List SupAction :=
  ({ s with sshChannels := [] },
    (s.sshChannels.map
      (fun p => [SupAction.chClose p.1, SupAction.cancelFire p.2])).flatten)

/-- Outcome of one reconnect request: the new state, or a Go `panic(err)`
(which kills the supervisor goroutine and, uncaught, the process), carrying
the state at the moment of the panic. -/
inductive ReconnectOut where
  | ok : TriState → ReconnectOut
  | panicked : List Nat → TriState → ReconnectOut
deriving DecidableEq

/-- The reconnect branch of `startReconnectLoop` together with
`helperNewClientConnect` (tri.go lines 79-85 and 99-114): store the
endpoint, close all channels, null the client and the transport, then
re-dial via SSHConnect (the `dial` oracle); cli and nc are set from a
successful dial, while a dial error is passed to `panic` — it is not
returned to any caller. -/
def reconnectStep (s : TriState) (uhp : UHP)
    (dial : UHP → Except (List Nat) (Nat × Nat)) : ReconnectOut × List SupAction :=
  let s1A := closeChannels { s with uhp := some uhp }
  let s2 := { s1A.1 with cli := none, nc := none }
  match dial uhp with
  | .ok cn => (.ok { s2 with cli := some cn.1, nc := some cn.2 }, s1A.2)
  | .error e => (.panicked e s2, s1A.2)

/-- C7: at the concrete failing input — a reconnect request whose re-dial
returns an error — the supervisor does drop the client and transport (both
none), does close both channels and fire their cancel handles, but then
panics with the dial error instead of returning it to the caller. -/
theorem reconnect_dial_error_panics :
    reconnectStep ⟨some 1, some 2, none, [(7, 3), (8, 4)]⟩
        ⟨ascii "bob", ascii "h:22"⟩ (fun _ => .error (ascii "dial failed")) =
      (.panicked (ascii "dial failed")
          ⟨none, none, some ⟨ascii "bob", ascii "h:22"⟩, []⟩,
        [.chClose 7, .cancelFire 3, .chClose 8, .cancelFire 4]) := by
  decide

/-- `Tricorder.helperGetChannel` (tri.go lines 116-138): on a successful
OpenChannel the channel and its fresh cancel handle are added to the map; on
an error the state is unchanged; the ticket receives the result either
way. -/
def helperGetChannel (s : TriState) (openRes : Except (List Nat) Nat)
    (cancelTok : Nat) : TriState × Except (List Nat) Nat :=
  match openRes with
  | .ok ch => ({ s with sshChannels := s.sshChannels ++ [(ch, cancelTok)] }, .ok ch)
  | .error e => (s, .error e)

/-- `ssh.Channel.Close()` as seen by the supervisor: closing the channel is
an operation on the channel object alone — no code path of tri.go removes a
closed channel from `sshChannels`, so the supervisor state is unchanged. -/
def channelCloseSupEffect (s : TriState) : TriState := s

/-- C8 counterexample: open a channel through the supervisor (channel 7,
cancel handle 3) and immediately close it — the supervisor's channel map
still contains the entry for channel 7, contradicting the claim that it
contains no entry for the channel. -/
theorem channel_close_leaves_map_entry :
    (channelCloseSupEffect
        (helperGetChannel ⟨some 1, some 2, none, []⟩ (.ok 7) 3).1).sshChannels =
      [(7, 3)] ∧
    ((7, 3) ∈ ([(7, 3)] : List (Nat × Nat))) ∧ ([(7, 3)] : List (Nat × Nat)) ≠ [] := by
  decide

/-- C8 (amended): opening a channel adds its entry to the supervisor's map
and an immediate close leaves that entry in place; the entry disappears only
when `closeChannels` runs (on halt or reconnect), which empties the whole
map. -/
theorem channel_map_entry_until_closeChannels (s : TriState) (ch tok : Nat) :
    (channelCloseSupEffect (helperGetChannel s (.ok ch) tok).1).sshChannels =
      s.sshChannels ++ [(ch, tok)] ∧
    (closeChannels
        (channelCloseSupEffect (helperGetChannel s (.ok ch) tok).1)).1.sshChannels =
      [] := by
  exact ⟨rfl, rfl⟩

/-!
### DialConfig.Dial (cli.go)

The TOFU retry loop around SSHConnect.  SSHConnect itself is outside the
given sources, so it is the `connect` oracle, indexed by the call number;
clients are Nat handles and errors are strings.
-/

/-- Prefix test on character lists. -/
def startsWithChk : List Char → List Char → Bool
  | [], _ => true
  | _ :: _, [] => false
  | a :: as, b :: bs => decide (a = b) && startsWithChk as bs

/-- Substring test (`strings.Contains`), needle then haystack. -/
def hasSub : List Char → List Char → Bool
  | needle, [] => needle.isEmpty
  | needle, c :: t => startsWithChk needle (c :: t) || hasSub needle t

/-- The sentinel cli.go looks for in the SSHConnect error. -/
def rerunMsg : String := "Re-run without -new now"

/-- `strings.Contains(err.Error(), "Re-run without -new now")`. -/
def containsRerun (e : String) : Bool := hasSub rerunMsg.data e.data

/-- Whether an SSHConnect result is an error carrying the sentinel. -/
def isRerunFail : Except String Nat → Bool
  | .error e => containsRerun e
  | .ok _ => false

/-- One run of `DialConfig.Dial` (cli.go lines 86-130) through its
SSHConnect loop: the `(cfg.AddIfNotKnown, dc.TofuAddIfNotKnown)` flags as
seen by each SSHConnect call, the outcome, and the final flags. -/
structure DialTrace where
  calls : List (Bool × Bool)
  outcome : Except String Nat
  cfgAddEnd : Bool
  tofuEnd : Bool

/-- The `for i := 0; i < tryCount; i++` loop of Dial: every iteration calls
SSHConnect; an error containing the sentinel clears both TOFU flags and
continues when `cfg.AddIfNotKnown` is still set, otherwise Dial returns the
error at once; after the loop the last error, if any, is returned, else the
client of the last call. -/
def dialLoop (connect : Nat → Except String Nat) :
    Nat → Nat → Bool → Bool → List (Bool × Bool) → Except String Nat → DialTrace
  | 0, _, cfgAdd, tofu, calls, last => ⟨calls, last, cfgAdd, tofu⟩
  | Nat.succ rem, i, cfgAdd, tofu, calls, _ =>
    match connect i with
    | .error e =>
      if containsRerun e then
        if cfgAdd then
          dialLoop connect rem (i + 1) false false (calls ++ [(cfgAdd, tofu)]) (.error e)
        else ⟨calls ++ [(cfgAdd, tofu)], .error e, cfgAdd, tofu⟩
      else dialLoop connect rem (i + 1) cfgAdd tofu (calls ++ [(cfgAdd, tofu)]) (.error e)
    | .ok cl => dialLoop connect rem (i + 1) cfgAdd tofu (calls ++ [(cfgAdd, tofu)]) (.ok cl)

/-- `DialConfig.Dial` up to the downstream dial: `cfg.AddIfNotKnown :=
dc.TofuAddIfNotKnown`; tryCount is 2 with TOFU set, else 1. -/
def dialModel (tofu : Bool) (connect : Nat → Except String Nat) : DialTrace :=
  dialLoop connect (if tofu then 2 else 1) 0 tofu tofu [] (.error "")

/-- C10: with TofuAddIfNotKnown set, Dial calls SSHConnect exactly twice —
also when the first call succeeds — and its result is whatever the second
call produced; the first call sees both flags true, and the second call sees
both flags false exactly when the first call failed with the sentinel
error. -/
theorem dial_tofu_two_connects (connect : Nat → Except String Nat) :
    (dialModel true connect).calls.length = 2 ∧
    (dialModel true connect).calls =
      [(true, true),
        if isRerunFail (connect 0) then (false, false) else (true, true)] ∧
    (dialModel true connect).outcome = connect 1 := by
  cases h0 : connect 0 with
  | error e0 =>
    by_cases hr0 : containsRerun e0
    · cases h1 : connect 1 with
      | error e1 =>
        by_cases hr1 : containsRerun e1
        · simp [dialModel, dialLoop, h0, h1, hr0, hr1, isRerunFail]
        · simp [dialModel, dialLoop, h0, h1, hr0, hr1, isRerunFail]
      | ok c1 => simp [dialModel, dialLoop, h0, h1, hr0, isRerunFail]
    · cases h1 : connect 1 with
      | error e1 =>
        by_cases hr1 : containsRerun e1
        · simp [dialModel, dialLoop, h0, h1, hr0, hr1, isRerunFail]
        · simp [dialModel, dialLoop, h0, h1, hr0, hr1, isRerunFail]
      | ok c1 => simp [dialModel, dialLoop, h0, h1, hr0, isRerunFail]
  | ok c0 =>
    cases h1 : connect 1 with
    | error e1 =>
      by_cases hr1 : containsRerun e1
      · simp [dialModel, dialLoop, h0, h1, hr1, isRerunFail]
      · simp [dialModel, dialLoop, h0, h1, hr1, isRerunFail]
    | ok c1 => simp [dialModel, dialLoop, h0, h1, isRerunFail]


end Sshego
